import Mathlib

/-!
Verification development for a first-person 3D maze game written in C.

The repository ships two source files, `src/main.c` (game loop, collision,
rendering) and `src/assets.c` (textures, torches, particles).  The maze
module itself (`Maze_Create`, `Maze_Generate`, the wall queries and the
coordinate transforms) is declared in a header and called from both files
but its implementation file is not part of the repository snapshot; those
operations are therefore modelled from the specification document, while
everything that appears in `main.c` / `assets.c` (the circle/rectangle
collision predicate, the axis-separated movement step, the torch placement
pass, the inline cell-to-world formulas) is embedded directly from the C
source.  Floating point arithmetic is modelled by the rationals, machine
integers by `Int`/`Nat`.
-/

namespace MazeGame

/-- The four wall sides of a cell.  North is towards smaller z (smaller y
index), matching the rendering code in `main.c` which draws the north wall
at `worldZ - halfCell`. -/
inductive Dir : Type
  | north
  | south
  | east
  | west
deriving DecidableEq, Repr, Fintype

/-- Opposite side, used to keep the two copies of a shared wall in sync. -/
def Dir.opp : Dir → Dir
  | .north => .south
  | .south => .north
  | .east => .west
  | .west => .east

/-- Modelled from the spec: each cell carries a wall mask of four
independent boolean flags (North, South, East, West), all set at creation
time. -/
structure WallMask : Type where
  north : Bool
  south : Bool
  east : Bool
  west : Bool
deriving DecidableEq, Repr

/-- Read one flag of a wall mask. -/
def WallMask.get (w : WallMask) : Dir → Bool
  | .north => w.north
  | .south => w.south
  | .east => w.east
  | .west => w.west

/-- Clear one flag of a wall mask. -/
def WallMask.clear (w : WallMask) : Dir → WallMask
  | .north => { w with north := false }
  | .south => { w with south := false }
  | .east => { w with east := false }
  | .west => { w with west := false }

/-- A mask with all four walls present, the creation-time value. -/
def fullMask : WallMask := ⟨true, true, true, true⟩

/-- State of the C library random number generator.  The program seeds it
once in `main` via `srand((unsigned int)time(NULL))`; every draw advances
this single process-global state. -/
structure RandState : Type where
  seed : ℕ
deriving DecidableEq, Repr

/-- One draw of the C library generator, modelled as the classic linear
congruential generator on 31 bits.  Returns the drawn value and the
advanced state. -/
def randNext (s : RandState) : ℕ × RandState :=
  let next := (s.seed * 1103515245 + 12345) % 2 ^ 31
  (next, ⟨next⟩)

/-- Seeding the global generator, as `srand` does in `main`; the argument
is reduced like a cast to a 32-bit unsigned integer. -/
def srand (n : ℕ) : RandState := ⟨n % 2 ^ 32⟩

/-- Modelled from the spec: the error taxonomy of the maze module
(`InvalidDimension`, `OutOfRange`, `NotAdjacent`). -/
inductive MazeError : Type
  | invalidDimension
  | outOfRange
  | notAdjacent
deriving DecidableEq, Repr

/-- Modelled from the spec: the maze aggregate — grid dimensions, cell
size in world units, the flat row-major array of wall masks (index
`y * width + x`), and the start and exit cells chosen by placement. -/
structure Maze : Type where
  width : ℕ
  height : ℕ
  cellSize : ℚ
  cells : List WallMask
  startPos : ℕ × ℕ
  exitPos : ℕ × ℕ
deriving DecidableEq, Repr

/-- Row-major index of a cell, as prescribed by the design notes
(`y * width + x`). -/
def cellIdx (W : ℕ) (c : ℕ × ℕ) : ℕ := c.2 * W + c.1

/-- Wall mask of a cell; out-of-range reads yield the all-walls mask. -/
def maskAt (m : Maze) (c : ℕ × ℕ) : WallMask :=
  m.cells.getD (cellIdx m.width c) fullMask

/-- Replace the wall mask of a cell. -/
def setMask (m : Maze) (c : ℕ × ℕ) (w : WallMask) : Maze :=
  { m with cells := m.cells.set (cellIdx m.width c) w }

/-- Modelled from the spec: `create(width, height)` allocates W×H cells,
each with all four walls present, and fails with `InvalidDimension` for a
non-positive dimension.  Start and exit are assigned later by placement. -/
def Maze_Create (W H : ℕ) (cs : ℚ) : Option Maze :=
  if W = 0 ∨ H = 0 then none
  else some ⟨W, H, cs, List.replicate (W * H) fullMask, (0, 0), (0, 0)⟩

/-- The 4-neighbor of a cell in a given direction, with the bounds checks
of the generator (`nx >= 0 && nx < W && ny >= 0 && ny < H`); `none` when
the neighbor would fall outside the grid. -/
def neighbor (W H : ℕ) (c : ℕ × ℕ) (d : Dir) : Option (ℕ × ℕ) :=
  match d with
  | .north => if 1 ≤ c.2 ∧ c.1 < W ∧ c.2 - 1 < H then some (c.1, c.2 - 1) else none
  | .south => if c.1 < W ∧ c.2 + 1 < H then some (c.1, c.2 + 1) else none
  | .west => if 1 ≤ c.1 ∧ c.1 - 1 < W ∧ c.2 < H then some (c.1 - 1, c.2) else none
  | .east => if c.1 + 1 < W ∧ c.2 < H then some (c.1 + 1, c.2) else none

/-- Direction from a cell towards a 4-adjacent cell, `none` when the two
cells are not 4-neighbors. -/
def dirBetween (a b : ℕ × ℕ) : Option Dir :=
  if a.1 = b.1 ∧ a.2 = b.2 + 1 then some .north
  else if a.1 = b.1 ∧ b.2 = a.2 + 1 then some .south
  else if a.2 = b.2 ∧ b.1 = a.1 + 1 then some .east
  else if a.2 = b.2 ∧ a.1 = b.1 + 1 then some .west
  else none

/-- Modelled from the spec: `removeWallBetween` clears the shared wall
flag on both cells, keeping the symmetry invariant; cells that are not
4-neighbors would be a `NotAdjacent` violation, which the generator never
triggers, and the maze is then left unchanged. -/
def Maze_RemoveWallBetween (m : Maze) (a b : ℕ × ℕ) : Maze :=
  match dirBetween a b with
  | some d =>
    let m1 := setMask m a ((maskAt m a).clear d)
    setMask m1 b ((maskAt m1 b).clear d.opp)
  | none => m

/-- The unvisited in-bounds 4-neighbors of a cell, in the fixed scan order
north, south, east, west. -/
def unvisitedNeighbors (W H : ℕ) (visited : Finset (ℕ × ℕ)) (c : ℕ × ℕ) :
    List (ℕ × ℕ) :=
  [Dir.north, Dir.south, Dir.east, Dir.west].filterMap fun d =>
    match neighbor W H c d with
    | some n => if n ∈ visited then none else some n
    | none => none

/-- The set of in-bounds cells of a W×H grid. -/
def allCells (W H : ℕ) : Finset (ℕ × ℕ) := Finset.range W ×ˢ Finset.range H

/-- Membership in the grid cell set unfolds to the two coordinate bounds. -/
theorem mem_allCells {W H : ℕ} {c : ℕ × ℕ} :
    c ∈ allCells W H ↔ c.1 < W ∧ c.2 < H := by
  simp [allCells, Finset.mem_product]

/-- A cell produced by `neighbor` is always inside the grid. -/
theorem neighbor_mem_allCells {W H : ℕ} {c n : ℕ × ℕ} {d : Dir}
    (h : neighbor W H c d = some n) : n ∈ allCells W H := by
  rw [mem_allCells]
  cases d
  case north =>
    simp only [neighbor] at h; split_ifs at h with hb; cases h
    exact ⟨hb.2.1, hb.2.2⟩
  case south =>
    simp only [neighbor] at h; split_ifs at h with hb; cases h
    exact ⟨hb.1, hb.2⟩
  case east =>
    simp only [neighbor] at h; split_ifs at h with hb; cases h
    exact ⟨hb.1, hb.2⟩
  case west =>
    simp only [neighbor] at h; split_ifs at h with hb; cases h
    exact ⟨hb.2.1, hb.2.2⟩

/-- Characterization of the unvisited-neighbor scan. -/
theorem mem_unvisitedNeighbors {W H : ℕ} {visited : Finset (ℕ × ℕ)}
    {c n : ℕ × ℕ} :
    n ∈ unvisitedNeighbors W H visited c ↔
      n ∉ visited ∧ ∃ d, neighbor W H c d = some n := by
  constructor
  · intro hmem
    simp only [unvisitedNeighbors, List.mem_filterMap] at hmem
    obtain ⟨d, _, hd⟩ := hmem
    cases hnb : neighbor W H c d with
    | none => rw [hnb] at hd; cases hd
    | some t =>
      rw [hnb] at hd
      by_cases ht : t ∈ visited
      · simp [ht] at hd
      · simp only [ht, ite_false, Option.some.injEq] at hd
        exact ⟨hd ▸ ht, d, by rw [hnb, hd]⟩
  · rintro ⟨hnv, d, hd⟩
    simp only [unvisitedNeighbors, List.mem_filterMap]
    refine ⟨d, by cases d <;> simp, ?_⟩
    rw [hd]
    simp [hnv]

/-- A valid index into a selection list yields an element of the list. -/
theorem getD_mem_of_lt_length {α : Type} {l : List α}
    (i : ℕ) (d : α) (hi : i < l.length) : l.getD i d ∈ l := by
  rw [List.getD_eq_getElem l d hi]
  exact List.getElem_mem hi

/-- Modelled from the spec: the iterative depth-first carving loop of the
recursive backtracker.  The top of the explicit stack is the current cell;
if it still has unvisited neighbors one is chosen uniformly at random via
the global generator, the shared wall is removed and the neighbor is
pushed, otherwise the stack is popped.  Terminates when the stack is
empty. -/
def genLoop (W H : ℕ) (m : Maze) (visited : Finset (ℕ × ℕ))
    (stack : List (ℕ × ℕ)) (rng : RandState) : Maze × RandState :=
  match stack with
  | [] => (m, rng)
  | c :: rest =>
    let ns := unvisitedNeighbors W H visited c
    if hns : ns = [] then
      genLoop W H m visited rest rng
    else
      let r := (randNext rng).1
      let rng' := (randNext rng).2
      let n := ns.getD (r % ns.length) c
      genLoop W H (Maze_RemoveWallBetween m c n) (insert n visited)
        (n :: c :: rest) rng'
  termination_by ((allCells W H \ visited).card, stack.length)
  decreasing_by
  · exact Prod.Lex.right _ (Nat.lt_succ_self _)
  · apply Prod.Lex.left
    have hmem : n ∈ ns :=
      getD_mem_of_lt_length _ c (Nat.mod_lt _ (List.length_pos.mpr hns))
    obtain ⟨hnv, d, hd⟩ := mem_unvisitedNeighbors.mp hmem
    have hcell : n ∈ allCells W H := neighbor_mem_allCells hd
    have hdiff : n ∈ allCells W H \ visited := Finset.mem_sdiff.mpr ⟨hcell, hnv⟩
    calc (allCells W H \ insert n visited).card
        = ((allCells W H \ visited).erase n).card := by
          rw [Finset.sdiff_insert]
      _ < (allCells W H \ visited).card := Finset.card_erase_lt_of_mem hdiff

/-- Modelled from the spec: placement assigns start and exit after
generation, with the simple deterministic corner policy named by the spec
(start at (0,0), exit at (W-1, H-1)). -/
def Maze_PlaceStartExit (m : Maze) : Maze :=
  { m with startPos := (0, 0), exitPos := (m.width - 1, m.height - 1) }

/-- Modelled from the spec: `Maze_Generate` runs the depth-first carving
from cell (0,0) and then assigns start and exit.  Its C signature takes
only the maze pointer; the randomness comes from the process-global
generator state, which the embedding threads explicitly. -/
def Maze_Generate (m : Maze) (rng : RandState) : Maze × RandState :=
  let res := genLoop m.width m.height m {((0, 0) : ℕ × ℕ)} [(0, 0)] rng
  (Maze_PlaceStartExit res.1, res.2)

/-- Modelled from the spec: `hasWall(x, y, side)` is bounds checked and
fails with `OutOfRange` outside the grid; the coordinates are never
clamped. -/
def Maze_HasWall (m : Maze) (x y : ℤ) (d : Dir) : Except MazeError Bool :=
  if 0 ≤ x ∧ x < (m.width : ℤ) ∧ 0 ≤ y ∧ y < (m.height : ℤ) then
    .ok ((maskAt m (x.toNat, y.toNat)).get d)
  else
    .error .outOfRange

/-- Modelled from the spec: `isExit` compares a cell against the recorded
exit cell. -/
def Maze_IsExit (m : Maze) (x y : ℤ) : Bool :=
  decide (x = (m.exitPos.1 : ℤ) ∧ y = (m.exitPos.2 : ℤ))

/-- Modelled from the spec: `cellToWorld` maps a cell index to the world
space center of the cell, `worldX = (x - width/2 + 0.5) * cellSize` and
`worldZ = (y - height/2 + 0.5) * cellSize`. -/
def Maze_CellToWorld (m : Maze) (x y : ℤ) : ℚ × ℚ :=
  (((x : ℚ) - (m.width : ℚ) / 2 + 1 / 2) * m.cellSize,
   ((y : ℚ) - (m.height : ℚ) / 2 + 1 / 2) * m.cellSize)

/-- Modelled from the spec: `worldToCell` is the inverse of
`cellToWorld`, rounding a world position to the nearest cell index. -/
def Maze_WorldToCell (m : Maze) (wx wz : ℚ) : ℤ × ℤ :=
  (⌊wx / m.cellSize + (m.width : ℚ) / 2⌋, ⌊wz / m.cellSize + (m.height : ℚ) / 2⌋)

/-- Passage between two cells of the maze: the cells are 4-adjacent, the
source cell is inside the grid, and both copies of the shared wall flag
are cleared.  This is the carved-passage graph of the spec. -/
def passage (W H : ℕ) (m : Maze) (a b : ℕ × ℕ) : Prop :=
  (a.1 < W ∧ a.2 < H) ∧
    ∃ d, neighbor W H a d = some b ∧
      (maskAt m a).get d = false ∧ (maskAt m b).get d.opp = false

instance (W H : ℕ) (m : Maze) (a b : ℕ × ℕ) : Decidable (passage W H m a b) := by
  unfold passage; infer_instance

/-- The removed wall pairs of a maze, each unordered wall pair counted
once by orienting it towards the larger row-major index. -/
def removedPairs (W H : ℕ) (m : Maze) : Finset ((ℕ × ℕ) × (ℕ × ℕ)) :=
  (allCells W H ×ˢ allCells W H).filter fun p =>
    passage W H m p.1 p.2 ∧ cellIdx W p.1 < cellIdx W p.2

/-- Double opposite is the identity. -/
theorem Dir.opp_opp (d : Dir) : d.opp.opp = d := by cases d <;> rfl

/-- Stepping to a neighbor and back returns to the source cell. -/
theorem neighbor_symm {W H : ℕ} {a b : ℕ × ℕ} {d : Dir}
    (ha : a.1 < W ∧ a.2 < H) (h : neighbor W H a d = some b) :
    neighbor W H b d.opp = some a := by
  obtain ⟨x, y⟩ := a
  cases d
  case north =>
    simp only [neighbor] at h; split_ifs at h with h1
    simp only [Option.some.injEq] at h; subst h
    simp only [Dir.opp, neighbor]
    rw [if_pos ⟨h1.2.1, show y - 1 + 1 < H by omega⟩]
    simp only [Option.some.injEq, Prod.mk.injEq]
    exact ⟨trivial, by omega⟩
  case south =>
    simp only [neighbor] at h; split_ifs at h with h1
    simp only [Option.some.injEq] at h; subst h
    simp only [Dir.opp, neighbor]
    rw [if_pos ⟨show 1 ≤ y + 1 by omega, h1.1, show y + 1 - 1 < H by omega⟩]
    simp only [Option.some.injEq, Prod.mk.injEq]
    exact ⟨trivial, by omega⟩
  case east =>
    simp only [neighbor] at h; split_ifs at h with h1
    simp only [Option.some.injEq] at h; subst h
    simp only [Dir.opp, neighbor]
    rw [if_pos ⟨show 1 ≤ x + 1 by omega, show x + 1 - 1 < W by omega, h1.2⟩]
    simp only [Option.some.injEq, Prod.mk.injEq]
    exact ⟨by omega, trivial⟩
  case west =>
    simp only [neighbor] at h; split_ifs at h with h1
    simp only [Option.some.injEq] at h; subst h
    simp only [Dir.opp, neighbor]
    rw [if_pos ⟨show x - 1 + 1 < W by omega, ha.2⟩]
    simp only [Option.some.injEq, Prod.mk.injEq]
    exact ⟨by omega, trivial⟩

/-- A cell is never its own neighbor. -/
theorem neighbor_ne_self {W H : ℕ} {a b : ℕ × ℕ} {d : Dir}
    (h : neighbor W H a d = some b) : b ≠ a := by
  obtain ⟨x, y⟩ := a
  cases d <;> simp only [neighbor] at h <;> split_ifs at h with h1 <;>
    simp only [Option.some.injEq] at h <;> subst h <;>
    (intro he; rw [Prod.mk.injEq] at he; omega)

/-- The carved-passage relation is symmetric. -/
theorem passage_symm {W H : ℕ} {m : Maze} {a b : ℕ × ℕ}
    (h : passage W H m a b) : passage W H m b a := by
  obtain ⟨ha, d, hn, hwa, hwb⟩ := h
  have hb := neighbor_mem_allCells hn
  rw [mem_allCells] at hb
  exact ⟨hb, d.opp, neighbor_symm ha hn, hwb, by rw [Dir.opp_opp]; exact hwa⟩

/-- The carved-passage relation is irreflexive. -/
theorem passage_irrefl {W H : ℕ} {m : Maze} {a : ℕ × ℕ} :
    ¬passage W H m a a := by
  rintro ⟨_, d, hn, _⟩
  exact neighbor_ne_self hn rfl

/-- The carved-passage graph on the grid vertices, as a simple graph. -/
def mazeGraph (W H : ℕ) (m : Maze) : SimpleGraph (Fin W × Fin H) where
  Adj a b := passage W H m (a.1.1, a.2.1) (b.1.1, b.2.1)
  symm := fun _ _ h => passage_symm h
  loopless := fun _ h => passage_irrefl h

/-- Wall flag of an in-bounds cell as a plain boolean, the form in which
the render and torch passes consume the query. -/
def hasWallB (m : Maze) (x y : ℕ) (d : Dir) : Bool := (maskAt m (x, y)).get d

/-- From `main.c`: collision radius of the player. -/
def PLAYER_RADIUS : ℚ := 30 / 100

/-- From `main.c`: an axis-aligned rectangle in the XZ plane, position
plus extents, as in the raylib `Rectangle` consumed by the collision
test. -/
structure Rect : Type where
  x : ℚ
  y : ℚ
  width : ℚ
  height : ℚ
deriving DecidableEq, Repr

/-- From `main.c`: a wall rectangle entry as produced by
`Maze_GetWallRects`. -/
structure WallRect : Type where
  rect : Rect
deriving DecidableEq, Repr

/-- From `main.c`: clamp a value to an interval. -/
def clampf (v lo hi : ℚ) : ℚ := if v < lo then lo else if hi < v then hi else v

/-- From `main.c`: circle versus axis-aligned rectangle intersection in
the XZ plane; the nearest rectangle point is found by clamping and the
test on the squared distance is inclusive. -/
def CircleRectIntersect (c : ℚ × ℚ) (r : ℚ) (rect : Rect) : Bool :=
  let nx := clampf c.1 rect.x (rect.x + rect.width)
  let nz := clampf c.2 rect.y (rect.y + rect.height)
  let dx := c.1 - nx
  let dz := c.2 - nz
  decide (dx * dx + dz * dz ≤ r * r)

/-- The nearest point of a rectangle to a circle center, exactly as the
collision test computes it. -/
def nearestPoint (rect : Rect) (c : ℚ × ℚ) : ℚ × ℚ :=
  (clampf c.1 rect.x (rect.x + rect.width),
   clampf c.2 rect.y (rect.y + rect.height))

/-- Squared euclidean distance in the XZ plane. -/
def sqDist (a b : ℚ × ℚ) : ℚ := (a.1 - b.1) * (a.1 - b.1) + (a.2 - b.2) * (a.2 - b.2)

/-- Membership of a point in an axis-aligned rectangle. -/
def inRect (rect : Rect) (p : ℚ × ℚ) : Prop :=
  rect.x ≤ p.1 ∧ p.1 ≤ rect.x + rect.width ∧
    rect.y ≤ p.2 ∧ p.2 ≤ rect.y + rect.height

/-- From `main.c`: test the player circle against every wall rectangle. -/
def CollidesAny (c : ℚ × ℚ) (r : ℚ) (walls : List WallRect) : Bool :=
  walls.any fun w => CircleRectIntersect c r w.rect

/-- From `main.c`: the per-frame axis-separated movement resolution for
the XZ position — try the X component of the step, keep it only when the
new position is collision free, then try the Z component from the
possibly updated X. -/
def movePlayerXZ (p : ℚ × ℚ) (step : ℚ × ℚ) (walls : List WallRect) : ℚ × ℚ :=
  let testX : ℚ × ℚ := (p.1 + step.1, p.2)
  let px := if CollidesAny testX PLAYER_RADIUS walls then p.1 else testX.1
  let testZ : ℚ × ℚ := (px, p.2 + step.2)
  let pz := if CollidesAny testZ PLAYER_RADIUS walls then p.2 else testZ.2
  (px, pz)

/-- From `main.c` (RenderMaze): the inline world-space cell center used
when drawing walls, `(x - width*0.5f + 0.5f) * cellSize` and likewise for
z. -/
def renderCellCenter (m : Maze) (x y : ℕ) : ℚ × ℚ :=
  (((x : ℚ) - (m.width : ℚ) * (1 / 2) + 1 / 2) * m.cellSize,
   ((y : ℚ) - (m.height : ℚ) * (1 / 2) + 1 / 2) * m.cellSize)

/-- From `assets.c` (Torches_Generate): the inline world-space cell
center used when anchoring torches, textually the same formula as in the
renderer. -/
def torchCellCenter (m : Maze) (x y : ℕ) : ℚ × ℚ :=
  (((x : ℚ) - (m.width : ℚ) * (1 / 2) + 1 / 2) * m.cellSize,
   ((y : ℚ) - (m.height : ℚ) * (1 / 2) + 1 / 2) * m.cellSize)

/-- From `assets.c`: a wall torch — position, outward normal, flicker
phase and base intensity. -/
structure Torch : Type where
  position : ℚ × ℚ × ℚ
  normal : ℚ × ℚ × ℚ
  flickerTime : ℚ
  baseIntensity : ℚ
deriving DecidableEq, Repr

/-- From `assets.c`: the two random draws that fill the flicker phase and
the base intensity of a torch, in program order. -/
def torchFields (rng : RandState) : ℚ × ℚ × RandState :=
  let r1 := (randNext rng).1
  let rng1 := (randNext rng).2
  let r2 := (randNext rng1).1
  let rng2 := (randNext rng1).2
  (((r1 % 1000 : ℕ) : ℚ) / 1000 * (628 / 100),
   8 / 10 + ((r2 % 20 : ℕ) : ℚ) / 100, rng2)

/-- From `assets.c`: the inner placement loop along one wall,
`for (offset = 0.5f; offset < cellSize && count < maxTorches; offset += 12.0f)`;
every iteration appends one torch and advances the count. -/
def torchLoop (cellSize : ℚ) (maxTorches : ℤ) (mkPos : ℚ → ℚ × ℚ × ℚ)
    (nrm : ℚ × ℚ × ℚ) (offset : ℚ) (count : ℤ) (acc : List Torch)
    (rng : RandState) : ℤ × List Torch × RandState :=
  if h : offset < cellSize ∧ count < maxTorches then
    let f := torchFields rng
    torchLoop cellSize maxTorches mkPos nrm (offset + 12) (count + 1)
      (acc ++ [⟨mkPos offset, nrm, f.1, f.2.1⟩]) f.2.2
  else (count, acc, rng)
  termination_by (maxTorches - count).toNat
  decreasing_by omega

/-- From `assets.c`: torch placement for one cell — check the four wall
sides in the order north, south, west, east and run the placement loop
along each present wall. -/
def torchCell (m : Maze) (maxTorches : ℤ) (x y : ℕ) (count : ℤ)
    (acc : List Torch) (rng : RandState) : ℤ × List Torch × RandState :=
  let worldX := ((x : ℚ) - (m.width : ℚ) * (1 / 2) + 1 / 2) * m.cellSize
  let worldZ := ((y : ℚ) - (m.height : ℚ) * (1 / 2) + 1 / 2) * m.cellSize
  let halfCell := m.cellSize * (1 / 2)
  let wallOffset : ℚ := 11 / 100
  let torchHeight : ℚ := 2
  let s1 :=
    if hasWallB m x y .north then
      torchLoop m.cellSize maxTorches
        (fun offset => (worldX - halfCell + offset, torchHeight, worldZ - halfCell - wallOffset))
        (0, 0, 1) (1 / 2) count acc rng
    else (count, acc, rng)
  let s2 :=
    if hasWallB m x y .south then
      torchLoop m.cellSize maxTorches
        (fun offset => (worldX - halfCell + offset, torchHeight, worldZ + halfCell + wallOffset))
        (0, 0, -1) (1 / 2) s1.1 s1.2.1 s1.2.2
    else s1
  let s3 :=
    if hasWallB m x y .west then
      torchLoop m.cellSize maxTorches
        (fun offset => (worldX - halfCell - wallOffset, torchHeight, worldZ - halfCell + offset))
        (1, 0, 0) (1 / 2) s2.1 s2.2.1 s2.2.2
    else s2
  if hasWallB m x y .east then
    torchLoop m.cellSize maxTorches
      (fun offset => (worldX + halfCell + wallOffset, torchHeight, worldZ - halfCell + offset))
      (-1, 0, 0) (1 / 2) s3.1 s3.2.1 s3.2.2
  else s3

/-- Row-major traversal order of the double cell loop in
`Torches_Generate`. -/
def torchCellList (W H : ℕ) : List (ℕ × ℕ) :=
  (List.range H).flatMap fun y => (List.range W).map fun x => (x, y)

/-- From `assets.c`: the double loop over cells; both loop conditions
also require `count < maxTorches`, so the traversal stops as soon as the
budget is exhausted. -/
def torchCellsGo (m : Maze) (maxTorches : ℤ) :
    List (ℕ × ℕ) → ℤ → List Torch → RandState → ℤ × List Torch × RandState
  | [], count, acc, rng => (count, acc, rng)
  | c :: rest, count, acc, rng =>
    if count < maxTorches then
      let s := torchCell m maxTorches c.1 c.2 count acc rng
      torchCellsGo m maxTorches rest s.1 s.2.1 s.2.2
    else (count, acc, rng)

/-- From `assets.c`: `Torches_Generate` — guard against a missing maze, a
missing output buffer or a non-positive capacity, then walk the grid and
place torches on walls.  The returned list holds exactly the entries the
C code wrote into the output buffer, in write order. -/
def Torches_Generate (maze? : Option Maze) (outProvided : Bool)
    (maxTorches : ℤ) (rng : RandState) : ℤ × List Torch × RandState :=
  match maze? with
  | none => (0, [], rng)
  | some m =>
    if outProvided = false ∨ maxTorches ≤ 0 then (0, [], rng)
    else torchCellsGo m maxTorches (torchCellList m.width m.height) 0 [] rng

/-! ### Coordinate transforms: claims C4 and C5 -/

/-- C4.  Round-trip inverse: for every valid cell index (x,y) with
x∈[0,W) and y∈[0,H) and a positive cell size, applying `worldToCell` to
the result of `cellToWorld(x,y)` yields exactly (x,y). -/
theorem worldToCell_cellToWorld (m : Maze) (x y : ℤ)
    (hcs : 0 < m.cellSize) (hx0 : 0 ≤ x) (hx : x < (m.width : ℤ))
    (hy0 : 0 ≤ y) (hy : y < (m.height : ℤ)) :
    Maze_WorldToCell m (Maze_CellToWorld m x y).1 (Maze_CellToWorld m x y).2 =
      (x, y) := by
  have hne : m.cellSize ≠ 0 := ne_of_gt hcs
  simp only [Maze_CellToWorld, Maze_WorldToCell, Prod.mk.injEq]
  rw [mul_div_cancel_right₀ _ hne, mul_div_cancel_right₀ _ hne]
  constructor
  · have : (x : ℚ) - (m.width : ℚ) / 2 + 1 / 2 + (m.width : ℚ) / 2
        = (x : ℚ) + 1 / 2 := by ring
    rw [this]
    rw [show ((x : ℚ) + 1 / 2) = (1 / 2 : ℚ) + (x : ℚ) by ring]
    rw [Int.floor_add_int]
    norm_num
  · have : (y : ℚ) - (m.height : ℚ) / 2 + 1 / 2 + (m.height : ℚ) / 2
        = (y : ℚ) + 1 / 2 := by ring
    rw [this]
    rw [show ((y : ℚ) + 1 / 2) = (1 / 2 : ℚ) + (y : ℚ) by ring]
    rw [Int.floor_add_int]
    norm_num

/-- C4 witness at a concrete maze and cell. -/
theorem worldToCell_cellToWorld_witness :
    (0 : ℚ) < (3 : ℚ) ∧
      Maze_WorldToCell ⟨15, 15, 3, [], (0, 0), (0, 0)⟩
        (Maze_CellToWorld ⟨15, 15, 3, [], (0, 0), (0, 0)⟩ 7 4).1
        (Maze_CellToWorld ⟨15, 15, 3, [], (0, 0), (0, 0)⟩ 7 4).2 = (7, 4) :=
  ⟨by norm_num,
    worldToCell_cellToWorld ⟨15, 15, 3, [], (0, 0), (0, 0)⟩ 7 4
      (by norm_num) (by decide) (by decide) (by decide) (by decide)⟩

/-- C5.  `cellToWorld` returns the origin-centered world-space cell
center `((x - width/2 + 0.5) * cellSize, (y - height/2 + 0.5) * cellSize)`,
and the inline formulas of the renderer (`main.c`) and of the torch pass
(`assets.c`) compute exactly the same point. -/
theorem cellToWorld_center (m : Maze) (x y : ℕ) :
    Maze_CellToWorld m x y =
      (((x : ℚ) - (m.width : ℚ) / 2 + 1 / 2) * m.cellSize,
       ((y : ℚ) - (m.height : ℚ) / 2 + 1 / 2) * m.cellSize) ∧
    renderCellCenter m x y = Maze_CellToWorld m x y ∧
    torchCellCenter m x y = Maze_CellToWorld m x y := by
  refine ⟨?_, ?_, ?_⟩ <;>
    simp only [Maze_CellToWorld, renderCellCenter, torchCellCenter,
      Prod.mk.injEq, Int.cast_natCast] <;>
    constructor <;> ring

/-! ### Bounds-checked wall query: claim C7 -/

/-- C7.  `hasWall` is bounds checked: every query outside
[0,W)×[0,H) fails with an `OutOfRange` error instead of clamping the
coordinates. -/
theorem hasWall_out_of_range (m : Maze) (x y : ℤ) (d : Dir)
    (h : x < 0 ∨ (m.width : ℤ) ≤ x ∨ y < 0 ∨ (m.height : ℤ) ≤ y) :
    Maze_HasWall m x y d = .error .outOfRange := by
  unfold Maze_HasWall
  rw [if_neg]
  intro hc
  rcases h with h | h | h | h <;> omega

/-- C7 witness at a concrete maze and out-of-range query. -/
theorem hasWall_out_of_range_witness :
    ((-1 : ℤ) < 0 ∨ ((⟨15, 15, 3, [], (0, 0), (0, 0)⟩ : Maze).width : ℤ) ≤ -1 ∨
        (2 : ℤ) < 0 ∨ ((⟨15, 15, 3, [], (0, 0), (0, 0)⟩ : Maze).height : ℤ) ≤ 2) ∧
      Maze_HasWall ⟨15, 15, 3, [], (0, 0), (0, 0)⟩ (-1) 2 .north =
        .error .outOfRange :=
  ⟨Or.inl (by decide),
    hasWall_out_of_range ⟨15, 15, 3, [], (0, 0), (0, 0)⟩ (-1) 2 .north
      (Or.inl (by decide))⟩

/-! ### Collision predicate: claims C8 and C9 -/

/-- Clamping to an interval containing t never moves further from v than
t is. -/
theorem clampf_sq_le {v lo hi t : ℚ} (h1 : lo ≤ t) (h2 : t ≤ hi) :
    (v - clampf v lo hi) * (v - clampf v lo hi) ≤ (v - t) * (v - t) := by
  unfold clampf
  split_ifs with ha hb
  · nlinarith
  · nlinarith
  · nlinarith

/-- The clamped point lies no further from the circle center than any
point of the rectangle, which justifies calling it the nearest point. -/
theorem nearestPoint_min (rect : Rect) (c q : ℚ × ℚ) (hq : inRect rect q) :
    sqDist c (nearestPoint rect c) ≤ sqDist c q := by
  obtain ⟨h1, h2, h3, h4⟩ := hq
  unfold sqDist nearestPoint
  have hx := clampf_sq_le (v := c.1) h1 h2
  have hz := clampf_sq_le (v := c.2) h3 h4
  simp only
  linarith

/-- C8.  The circle versus axis-aligned rectangle test counts an
inclusive boundary touch as a collision: whenever the squared distance
from the center to the nearest rectangle point equals the squared radius,
the predicate returns true; moreover the clamped point used by the code
is indeed the nearest point of the rectangle. -/
theorem circleRect_inclusive_touch (c : ℚ × ℚ) (r : ℚ) (rect : Rect)
    (h : sqDist c (nearestPoint rect c) = r * r) :
    CircleRectIntersect c r rect = true ∧
      ∀ q, inRect rect q → sqDist c (nearestPoint rect c) ≤ sqDist c q := by
  refine ⟨?_, fun q hq => nearestPoint_min rect c q hq⟩
  unfold CircleRectIntersect
  simp only [decide_eq_true_eq]
  unfold sqDist nearestPoint at h
  simp only at h
  exact le_of_eq h

/-- C8 witness: center (0,0), radius 1, rectangle with nearest point
(1,0) at distance exactly 1. -/
theorem circleRect_inclusive_touch_witness :
    sqDist (0, 0) (nearestPoint ⟨1, 0, 1, 1⟩ (0, 0)) = 1 * 1 ∧
      CircleRectIntersect (0, 0) 1 ⟨1, 0, 1, 1⟩ = true ∧
      ∀ q, inRect ⟨1, 0, 1, 1⟩ q →
        sqDist (0, 0) (nearestPoint ⟨1, 0, 1, 1⟩ (0, 0)) ≤ sqDist (0, 0) q :=
  ⟨by norm_num [sqDist, nearestPoint, clampf],
    (circleRect_inclusive_touch (0, 0) 1 ⟨1, 0, 1, 1⟩
      (by norm_num [sqDist, nearestPoint, clampf])).1,
    (circleRect_inclusive_touch (0, 0) 1 ⟨1, 0, 1, 1⟩
      (by norm_num [sqDist, nearestPoint, clampf])).2⟩

/-- C9.  The axis-separated movement step preserves non-collision: if the
XZ position is collision free at the player radius, then for every step
vector the position after the X-then-Z resolution is still collision
free. -/
theorem movePlayer_preserves_noncollision (p step : ℚ × ℚ)
    (walls : List WallRect)
    (h : CollidesAny p PLAYER_RADIUS walls = false) :
    CollidesAny (movePlayerXZ p step walls) PLAYER_RADIUS walls = false := by
  simp only [movePlayerXZ]
  have hpx : ∀ px : ℚ,
      px = (if CollidesAny (p.1 + step.1, p.2) PLAYER_RADIUS walls then p.1
        else p.1 + step.1) →
      CollidesAny (px, p.2) PLAYER_RADIUS walls = false := by
    intro px hdef
    by_cases hX : CollidesAny (p.1 + step.1, p.2) PLAYER_RADIUS walls = true
    · rw [hdef, if_pos hX]
      exact h
    · rw [hdef, if_neg hX]
      exact Bool.not_eq_true _ ▸ (eq_false_of_ne_true hX)
  by_cases hZ : CollidesAny
      ((if CollidesAny (p.1 + step.1, p.2) PLAYER_RADIUS walls then p.1
        else p.1 + step.1), p.2 + step.2) PLAYER_RADIUS walls = true
  · rw [if_pos hZ]
    exact hpx _ rfl
  · rw [if_neg hZ]
    exact eq_false_of_ne_true hZ

/-- C9 witness: a wall ahead of the player, a step pushing into it; the
resolved position stays collision free. -/
theorem movePlayer_preserves_noncollision_witness :
    CollidesAny (0, 0) PLAYER_RADIUS [⟨⟨1, -1, 1, 2⟩⟩] = false ∧
      CollidesAny (movePlayerXZ (0, 0) (1, 0) [⟨⟨1, -1, 1, 2⟩⟩])
        PLAYER_RADIUS [⟨⟨1, -1, 1, 2⟩⟩] = false :=
  ⟨by norm_num [CollidesAny, CircleRectIntersect, clampf, PLAYER_RADIUS],
    movePlayer_preserves_noncollision (0, 0) (1, 0) [⟨⟨1, -1, 1, 2⟩⟩]
      (by norm_num [CollidesAny, CircleRectIntersect, clampf, PLAYER_RADIUS])⟩

/-! ### Generator invariant machinery (claims C1, C2, C3, C6) -/

/-- Unfolding: the carving loop stops on an empty stack. -/
theorem genLoop_nil (W H : ℕ) (m : Maze) (visited : Finset (ℕ × ℕ))
    (rng : RandState) : genLoop W H m visited [] rng = (m, rng) := by
  rw [genLoop]

/-- Unfolding: with no unvisited neighbor the loop backtracks. -/
theorem genLoop_cons_empty (W H : ℕ) (m : Maze) (visited : Finset (ℕ × ℕ))
    (c : ℕ × ℕ) (rest : List (ℕ × ℕ)) (rng : RandState)
    (h : unvisitedNeighbors W H visited c = []) :
    genLoop W H m visited (c :: rest) rng = genLoop W H m visited rest rng := by
  rw [genLoop]
  exact dif_pos h

/-- Unfolding: with an unvisited neighbor available the loop carves into
the randomly selected one and pushes it. -/
theorem genLoop_cons_step (W H : ℕ) (m : Maze) (visited : Finset (ℕ × ℕ))
    (c : ℕ × ℕ) (rest : List (ℕ × ℕ)) (rng : RandState)
    (h : unvisitedNeighbors W H visited c ≠ []) :
    genLoop W H m visited (c :: rest) rng =
      genLoop W H
        (Maze_RemoveWallBetween m c
          ((unvisitedNeighbors W H visited c).getD
            ((randNext rng).1 % (unvisitedNeighbors W H visited c).length) c))
        (insert ((unvisitedNeighbors W H visited c).getD
            ((randNext rng).1 % (unvisitedNeighbors W H visited c).length) c)
          visited)
        (((unvisitedNeighbors W H visited c).getD
            ((randNext rng).1 % (unvisitedNeighbors W H visited c).length) c)
          :: c :: rest)
        (randNext rng).2 := by
  rw [genLoop]
  exact dif_neg h

/-- Clearing one direction affects only that flag. -/
theorem WallMask.get_clear (w : WallMask) (d d' : Dir) :
    (w.clear d').get d = if d = d' then false else w.get d := by
  cases d <;> cases d' <;> rfl

/-- The opposite map is injective. -/
theorem Dir.opp_inj {d d' : Dir} (h : d.opp = d'.opp) : d = d' := by
  cases d <;> cases d' <;> first | rfl | cases h

/-- The row-major index is injective on in-bounds cells. -/
theorem cellIdx_inj {W H : ℕ} {c c' : ℕ × ℕ} (hc : c ∈ allCells W H)
    (hc' : c' ∈ allCells W H) (h : cellIdx W c = cellIdx W c') : c = c' := by
  rw [mem_allCells] at hc hc'
  unfold cellIdx at h
  have hW : 0 < W := lt_of_le_of_lt (Nat.zero_le _) hc.1
  have m1 : (c.2 * W + c.1) % W = c.1 := by
    rw [Nat.add_comm, Nat.add_mul_mod_self_right, Nat.mod_eq_of_lt hc.1]
  have m2 : (c'.2 * W + c'.1) % W = c'.1 := by
    rw [Nat.add_comm, Nat.add_mul_mod_self_right, Nat.mod_eq_of_lt hc'.1]
  have d1 : (c.2 * W + c.1) / W = c.2 := by
    rw [Nat.add_comm, Nat.add_mul_div_right _ _ hW, Nat.div_eq_of_lt hc.1,
      Nat.zero_add]
  have d2 : (c'.2 * W + c'.1) / W = c'.2 := by
    rw [Nat.add_comm, Nat.add_mul_div_right _ _ hW, Nat.div_eq_of_lt hc'.1,
      Nat.zero_add]
  refine Prod.ext ?_ ?_
  · rw [← m1, ← m2, h]
  · rw [← d1, ← d2, h]

/-- The row-major index of an in-bounds cell is below the array length. -/
theorem cellIdx_lt {W H : ℕ} {c : ℕ × ℕ} (hc : c ∈ allCells W H) :
    cellIdx W c < W * H := by
  rw [mem_allCells] at hc
  unfold cellIdx
  calc c.2 * W + c.1 < c.2 * W + W := by omega
    _ = (c.2 + 1) * W := by ring
    _ ≤ H * W := Nat.mul_le_mul_right W hc.2
    _ = W * H := Nat.mul_comm H W

/-- `setMask` changes only the cell array. -/
theorem setMask_fields (m : Maze) (c : ℕ × ℕ) (w : WallMask) :
    (setMask m c w).width = m.width ∧ (setMask m c w).height = m.height ∧
      (setMask m c w).cellSize = m.cellSize ∧
      (setMask m c w).cells.length = m.cells.length ∧
      (setMask m c w).startPos = m.startPos ∧
      (setMask m c w).exitPos = m.exitPos := by
  simp [setMask]

/-- Reading back the written cell. -/
theorem maskAt_setMask_self {m : Maze} {c : ℕ × ℕ} (w : WallMask)
    (h : cellIdx m.width c < m.cells.length) :
    maskAt (setMask m c w) c = w := by
  unfold maskAt setMask
  simp only
  rw [List.getD_eq_getElem _ _ (by simpa using h)]
  simp [List.getElem_set_self]

/-- Reading an untouched cell. -/
theorem maskAt_setMask_other {m : Maze} {c c' : ℕ × ℕ} (w : WallMask)
    (h : cellIdx m.width c' ≠ cellIdx m.width c) :
    maskAt (setMask m c w) c' = maskAt m c' := by
  unfold maskAt setMask
  simp only
  rcases Nat.lt_or_ge (cellIdx m.width c') m.cells.length with hlt | hge
  · rw [List.getD_eq_getElem _ _ (by simpa using hlt),
      List.getD_eq_getElem _ _ hlt]
    simp [List.getElem_set_ne (Ne.symm h)]
  · rw [List.getD_eq_default _ _ (by simpa using hge),
      List.getD_eq_default _ _ hge]

/-- `removeWallBetween` changes only the cell array. -/
theorem removeWall_fields (m : Maze) (a b : ℕ × ℕ) :
    (Maze_RemoveWallBetween m a b).width = m.width ∧
      (Maze_RemoveWallBetween m a b).height = m.height ∧
      (Maze_RemoveWallBetween m a b).cellSize = m.cellSize ∧
      (Maze_RemoveWallBetween m a b).cells.length = m.cells.length ∧
      (Maze_RemoveWallBetween m a b).startPos = m.startPos ∧
      (Maze_RemoveWallBetween m a b).exitPos = m.exitPos := by
  unfold Maze_RemoveWallBetween
  cases h : dirBetween a b <;> simp [setMask]

/-- The direction recomputed from the coordinates of a neighbor pair is
the direction that produced it. -/
theorem dirBetween_of_neighbor {W H : ℕ} {a b : ℕ × ℕ} {d : Dir}
    (h : neighbor W H a d = some b) : dirBetween a b = some d := by
  obtain ⟨x, y⟩ := a
  cases d
  case north =>
    simp only [neighbor] at h; split_ifs at h with h1
    simp only [Option.some.injEq] at h; subst h
    unfold dirBetween
    dsimp only
    rw [if_pos ⟨rfl, by omega⟩]
  case south =>
    simp only [neighbor] at h; split_ifs at h with h1
    simp only [Option.some.injEq] at h; subst h
    unfold dirBetween
    dsimp only
    rw [if_neg (by omega), if_pos ⟨rfl, rfl⟩]
  case east =>
    simp only [neighbor] at h; split_ifs at h with h1
    simp only [Option.some.injEq] at h; subst h
    unfold dirBetween
    dsimp only
    rw [if_neg (by omega), if_neg (by omega), if_pos ⟨rfl, rfl⟩]
  case west =>
    simp only [neighbor] at h; split_ifs at h with h1
    simp only [Option.some.injEq] at h; subst h
    unfold dirBetween
    dsimp only
    rw [if_neg (by omega), if_neg (by omega), if_neg (by omega),
      if_pos ⟨rfl, by omega⟩]

/-- Two directions from the same cell never reach the same target. -/
theorem neighbor_dir_inj {W H : ℕ} {a t : ℕ × ℕ} {d d' : Dir}
    (h : neighbor W H a d = some t) (h' : neighbor W H a d' = some t) :
    d = d' := by
  obtain ⟨x, y⟩ := a
  cases d <;> cases d' <;> try rfl
  all_goals
    simp only [neighbor] at h h' <;> split_ifs at h h' with h1 h2 <;>
      simp only [Option.some.injEq] at h h'
  all_goals
    rw [← h'] at h
  all_goals
    rw [Prod.mk.injEq] at h
  all_goals omega

/-- Two sources reaching the same in-bounds target along the same
direction coincide. -/
theorem neighbor_source_inj {W H : ℕ} {a a' t : ℕ × ℕ} {d : Dir}
    (ha : a ∈ allCells W H) (ha' : a' ∈ allCells W H)
    (h : neighbor W H a d = some t) (h' : neighbor W H a' d = some t) :
    a = a' := by
  rw [mem_allCells] at ha ha'
  have s1 := neighbor_symm ha h
  have s2 := neighbor_symm ha' h'
  rw [s1] at s2
  exact Option.some_injective _ s2

section Carve

variable {W H : ℕ} {m : Maze} {c n : ℕ × ℕ} {d : Dir}

/-- Carving changes the source cell by clearing the carved direction. -/
theorem maskAt_carve_left (hW : m.width = W) (hlen : m.cells.length = W * H)
    (hc : c ∈ allCells W H) (hd : neighbor W H c d = some n) :
    maskAt (Maze_RemoveWallBetween m c n) c = (maskAt m c).clear d := by
  have hn : n ∈ allCells W H := neighbor_mem_allCells hd
  have hne : n ≠ c := neighbor_ne_self hd
  unfold Maze_RemoveWallBetween
  rw [dirBetween_of_neighbor hd]
  have h1 : (setMask m c ((maskAt m c).clear d)).width = m.width := rfl
  rw [maskAt_setMask_other _ (by rw [h1, hW]; exact fun he => hne (cellIdx_inj hc hn he).symm)]
  exact maskAt_setMask_self _ (by rw [hW, hlen]; exact cellIdx_lt hc)

/-- Carving changes the target cell by clearing the mirrored direction. -/
theorem maskAt_carve_right (hW : m.width = W) (hlen : m.cells.length = W * H)
    (hc : c ∈ allCells W H) (hd : neighbor W H c d = some n) :
    maskAt (Maze_RemoveWallBetween m c n) n = (maskAt m n).clear d.opp := by
  have hn : n ∈ allCells W H := neighbor_mem_allCells hd
  have hne : n ≠ c := neighbor_ne_self hd
  unfold Maze_RemoveWallBetween
  rw [dirBetween_of_neighbor hd]
  have h1 : (setMask m c ((maskAt m c).clear d)).width = m.width := rfl
  have h2 : (setMask m c ((maskAt m c).clear d)).cells.length = m.cells.length :=
    (setMask_fields m c _).2.2.2.1
  rw [maskAt_setMask_self _ (by rw [h1, hW, h2, hlen]; exact cellIdx_lt hn)]
  rw [maskAt_setMask_other _ (by rw [hW]; exact fun he => hne (cellIdx_inj hn hc he))]

/-- Carving leaves every other cell unchanged. -/
theorem maskAt_carve_other (hW : m.width = W)
    (hc : c ∈ allCells W H) (hd : neighbor W H c d = some n)
    {x : ℕ × ℕ} (hx : x ∈ allCells W H) (hxc : x ≠ c) (hxn : x ≠ n) :
    maskAt (Maze_RemoveWallBetween m c n) x = maskAt m x := by
  have hn : n ∈ allCells W H := neighbor_mem_allCells hd
  unfold Maze_RemoveWallBetween
  rw [dirBetween_of_neighbor hd]
  have h1 : (setMask m c ((maskAt m c).clear d)).width = m.width := rfl
  rw [maskAt_setMask_other _ (by rw [h1, hW]; exact fun he => hxn (cellIdx_inj hx hn he))]
  rw [maskAt_setMask_other _ (by rw [hW]; exact fun he => hxc (cellIdx_inj hx hc he))]

/-- Carving never recreates a wall: a cleared flag stays cleared. -/
theorem carve_get_false (hW : m.width = W) (hlen : m.cells.length = W * H)
    (hc : c ∈ allCells W H) (hd : neighbor W H c d = some n)
    {x : ℕ × ℕ} (hx : x ∈ allCells W H) {e : Dir}
    (h : (maskAt m x).get e = false) :
    (maskAt (Maze_RemoveWallBetween m c n) x).get e = false := by
  by_cases hxc : x = c
  · subst hxc
    rw [maskAt_carve_left hW hlen hc hd, WallMask.get_clear]
    split_ifs <;> simp [h]
  · by_cases hxn : x = n
    · subst hxn
      rw [maskAt_carve_right hW hlen hc hd, WallMask.get_clear]
      split_ifs <;> simp [h]
    · rw [maskAt_carve_other hW hc hd hx hxc hxn]
      exact h

/-- Effect of one carve on the passage relation: exactly the carved pair
is added. -/
theorem passage_carve_iff (hW : m.width = W) (hlen : m.cells.length = W * H)
    (hc : c ∈ allCells W H) (hd : neighbor W H c d = some n)
    (a b : ℕ × ℕ) :
    passage W H (Maze_RemoveWallBetween m c n) a b ↔
      passage W H m a b ∨ (a = c ∧ b = n) ∨ (a = n ∧ b = c) := by
  have hnall : n ∈ allCells W H := neighbor_mem_allCells hd
  have hncn : n ≠ c := neighbor_ne_self hd
  constructor
  · rintro ⟨ha, d', hn', hwa, hwb⟩
    have haall : a ∈ allCells W H := mem_allCells.mpr ha
    have hball : b ∈ allCells W H := neighbor_mem_allCells hn'
    have hba : b ≠ a := neighbor_ne_self hn'
    by_cases hac : a = c
    · subst hac
      by_cases hdd : d' = d
      · subst hdd
        right; left
        exact ⟨rfl, (Option.some_injective _ (hd.symm.trans hn')).symm⟩
      · have hbn : b ≠ n := by
          intro hbn
          subst hbn
          exact hdd (neighbor_dir_inj hn' hd)
        rw [maskAt_carve_left hW hlen hc hd, WallMask.get_clear,
          if_neg hdd] at hwa
        rw [maskAt_carve_other hW hc hd hball hba hbn] at hwb
        exact Or.inl ⟨ha, d', hn', hwa, hwb⟩
    · by_cases han : a = n
      · subst han
        by_cases hdd : d' = d.opp
        · subst hdd
          right; right
          refine ⟨rfl, ?_⟩
          have hsym := neighbor_symm (mem_allCells.mp hc) hd
          exact (Option.some_injective _ (hsym.symm.trans hn')).symm
        · have hbc : b ≠ c := by
            intro hbc
            subst hbc
            exact hdd (neighbor_dir_inj hn' (neighbor_symm (mem_allCells.mp hc) hd))
          rw [maskAt_carve_right hW hlen hc hd, WallMask.get_clear,
            if_neg hdd] at hwa
          rw [maskAt_carve_other hW hc hd hball hbc hba] at hwb
          exact Or.inl ⟨ha, d', hn', hwa, hwb⟩
      · rw [maskAt_carve_other hW hc hd haall hac han] at hwa
        by_cases hbc : b = c
        · subst hbc
          have hdo : d'.opp ≠ d := by
            intro he
            apply han
            have hsym := neighbor_symm ha hn'
            rw [he] at hsym
            exact (Option.some_injective _ (hd.symm.trans hsym)).symm
          rw [maskAt_carve_left hW hlen hc hd, WallMask.get_clear,
            if_neg hdo] at hwb
          exact Or.inl ⟨ha, d', hn', hwa, hwb⟩
        · by_cases hbn : b = n
          · subst hbn
            have hdo : d'.opp ≠ d.opp := by
              intro he
              exact hac (neighbor_source_inj haall hc
                ((Dir.opp_inj he) ▸ hn') hd)
            rw [maskAt_carve_right hW hlen hc hd, WallMask.get_clear,
              if_neg hdo] at hwb
            exact Or.inl ⟨ha, d', hn', hwa, hwb⟩
          · rw [maskAt_carve_other hW hc hd hball hbc hbn] at hwb
            exact Or.inl ⟨ha, d', hn', hwa, hwb⟩
  · rintro (⟨ha, d', hn', hwa, hwb⟩ | ⟨rfl, rfl⟩ | ⟨rfl, rfl⟩)
    · exact ⟨ha, d', hn',
        carve_get_false hW hlen hc hd (mem_allCells.mpr ha) hwa,
        carve_get_false hW hlen hc hd (neighbor_mem_allCells hn') hwb⟩
    · refine ⟨mem_allCells.mp hc, d, hd, ?_, ?_⟩
      · rw [maskAt_carve_left hW hlen hc hd, WallMask.get_clear, if_pos rfl]
      · rw [maskAt_carve_right hW hlen hc hd, WallMask.get_clear, if_pos rfl]
    · refine ⟨mem_allCells.mp hnall, d.opp,
        neighbor_symm (mem_allCells.mp hc) hd, ?_, ?_⟩
      · rw [maskAt_carve_right hW hlen hc hd, WallMask.get_clear, if_pos rfl]
      · rw [maskAt_carve_left hW hlen hc hd, WallMask.get_clear, Dir.opp_opp,
          if_pos rfl]

end Carve

/-- The wall symmetry invariant survives one carve. -/
theorem sym_carve {W H : ℕ} {m : Maze} {c n : ℕ × ℕ} {d : Dir}
    (hW : m.width = W) (hlen : m.cells.length = W * H)
    (hc : c ∈ allCells W H) (hd : neighbor W H c d = some n)
    (hsym : ∀ a ∈ allCells W H, ∀ (d' : Dir) (b : ℕ × ℕ),
      neighbor W H a d' = some b →
        (maskAt m a).get d' = (maskAt m b).get d'.opp) :
    ∀ a ∈ allCells W H, ∀ (d' : Dir) (b : ℕ × ℕ),
      neighbor W H a d' = some b →
        (maskAt (Maze_RemoveWallBetween m c n) a).get d' =
          (maskAt (Maze_RemoveWallBetween m c n) b).get d'.opp := by
  intro a ha d' b hn'
  have hball : b ∈ allCells W H := neighbor_mem_allCells hn'
  have hba : b ≠ a := neighbor_ne_self hn'
  have hnall : n ∈ allCells W H := neighbor_mem_allCells hd
  have hncn : n ≠ c := neighbor_ne_self hd
  by_cases hac : a = c
  · subst hac
    by_cases hdd : d' = d
    · subst hdd
      have hbn : b = n := Option.some_injective _ (hd.symm.trans hn').symm
      subst hbn
      rw [maskAt_carve_left hW hlen hc hd, maskAt_carve_right hW hlen hc hd,
        WallMask.get_clear, if_pos rfl, WallMask.get_clear, if_pos rfl]
    · have hbn : b ≠ n := by
        intro hbn; subst hbn
        exact hdd (neighbor_dir_inj hn' hd)
      rw [maskAt_carve_left hW hlen hc hd, WallMask.get_clear, if_neg hdd,
        maskAt_carve_other hW hc hd hball hba hbn]
      exact hsym a ha d' b hn'
  · by_cases han : a = n
    · subst han
      by_cases hdd : d' = d.opp
      · subst hdd
        have hbc : b = c := Option.some_injective _
          ((neighbor_symm (mem_allCells.mp hc) hd).symm.trans hn').symm
        subst hbc
        rw [maskAt_carve_right hW hlen hc hd, WallMask.get_clear, if_pos rfl,
          maskAt_carve_left hW hlen hc hd, WallMask.get_clear, Dir.opp_opp,
          if_pos rfl]
      · have hbc : b ≠ c := by
          intro hbc; subst hbc
          exact hdd (neighbor_dir_inj hn'
            (neighbor_symm (mem_allCells.mp hc) hd))
        rw [maskAt_carve_right hW hlen hc hd, WallMask.get_clear, if_neg hdd,
          maskAt_carve_other hW hc hd hball hbc hba]
        exact hsym a ha d' b hn'
    · rw [maskAt_carve_other hW hc hd ha hac han]
      by_cases hbc : b = c
      · subst hbc
        have hdo : d'.opp ≠ d := by
          intro he
          have hsymq := neighbor_symm (mem_allCells.mp ha) hn'
          rw [he] at hsymq
          exact han (Option.some_injective _ (hd.symm.trans hsymq)).symm
        rw [maskAt_carve_left hW hlen hc hd, WallMask.get_clear, if_neg hdo]
        exact hsym a ha d' _ hn'
      · by_cases hbn : b = n
        · subst hbn
          have hdo : d'.opp ≠ d.opp := by
            intro he
            exact hac (neighbor_source_inj ha hc ((Dir.opp_inj he) ▸ hn') hd)
          rw [maskAt_carve_right hW hlen hc hd, WallMask.get_clear, if_neg hdo]
          exact hsym a ha d' _ hn'
        · rw [maskAt_carve_other hW hc hd hball hbc hbn]
          exact hsym a ha d' b hn'

/-- One carve adds exactly one removed wall pair. -/
theorem removedPairs_carve {W H : ℕ} {m : Maze} {c n : ℕ × ℕ} {d : Dir}
    (hW : m.width = W) (hlen : m.cells.length = W * H)
    (hc : c ∈ allCells W H) (hd : neighbor W H c d = some n)
    (hno : ¬passage W H m c n) :
    (removedPairs W H (Maze_RemoveWallBetween m c n)).card =
      (removedPairs W H m).card + 1 := by
  have hnall : n ∈ allCells W H := neighbor_mem_allCells hd
  have hncn : n ≠ c := neighbor_ne_self hd
  have hidx : cellIdx W c ≠ cellIdx W n := fun he =>
    hncn (cellIdx_inj hnall hc he.symm)
  have hnos : ¬passage W H m n c := fun h => hno (passage_symm h)
  set p₀ : (ℕ × ℕ) × (ℕ × ℕ) :=
    if cellIdx W c < cellIdx W n then (c, n) else (n, c) with hp₀
  have hset : removedPairs W H (Maze_RemoveWallBetween m c n) =
      insert p₀ (removedPairs W H m) := by
    ext ⟨a, b⟩
    simp only [removedPairs, Finset.mem_filter, Finset.mem_insert,
      Finset.mem_product, passage_carve_iff hW hlen hc hd]
    constructor
    · rintro ⟨⟨haa, hbb⟩, hap | ⟨rfl, rfl⟩ | ⟨rfl, rfl⟩, hord⟩
      · exact Or.inr ⟨⟨haa, hbb⟩, hap, hord⟩
      · left
        rw [hp₀, if_pos hord]
      · left
        rw [hp₀, if_neg (by omega)]
    · rintro (hab | ⟨⟨haa, hbb⟩, hap, hord⟩)
      · rw [hp₀] at hab
        split_ifs at hab with hord
        · cases hab
          exact ⟨⟨hc, hnall⟩, Or.inr (Or.inl ⟨rfl, rfl⟩), hord⟩
        · cases hab
          exact ⟨⟨hnall, hc⟩, Or.inr (Or.inr ⟨rfl, rfl⟩), by omega⟩
      · exact ⟨⟨haa, hbb⟩, Or.inl hap, hord⟩
  have hnotmem : p₀ ∉ removedPairs W H m := by
    intro hmem
    rw [hp₀] at hmem
    split_ifs at hmem with hord
    · exact hno (Finset.mem_filter.mp hmem).2.1
    · exact hnos (Finset.mem_filter.mp hmem).2.1
  rw [hset, Finset.card_insert_of_not_mem hnotmem]

/-- Adding one edge at a previously isolated vertex cannot create a
cycle. -/
theorem isAcyclic_pendant {V : Type} [DecidableEq V]
    {G G' : SimpleGraph V} {x y : V} (hxy : x ≠ y)
    (hiso : ∀ z, ¬G.Adj x z) (hacyc : G.IsAcyclic)
    (hAdj : ∀ a b, G'.Adj a b ↔
      G.Adj a b ∨ (a = y ∧ b = x) ∨ (a = x ∧ b = y)) :
    G'.IsAcyclic := by
  intro v p hp
  by_cases hx : x ∈ p.support
  · obtain ⟨q, hq⟩ : ∃ q : G'.Walk x x, q.IsCycle :=
      ⟨p.rotate hx, hp.rotate hx⟩
    cases q with
    | nil => exact SimpleGraph.Walk.IsCycle.not_of_nil hq
    | cons hadj q' =>
      rename_i w
      have hw : w = y := by
        rcases (hAdj _ _).mp hadj with h | ⟨hxx, _⟩ | ⟨_, hby⟩
        · exact absurd h (hiso _)
        · exact absurd hxx hxy
        · exact hby
      have hxw : x ≠ w := by rw [hw]; exact hxy
      rw [SimpleGraph.Walk.cons_isCycle_iff] at hq
      obtain ⟨hpath, hnotmem⟩ := hq
      obtain ⟨z, hz, q₂, hq2⟩ :=
        SimpleGraph.Walk.exists_eq_cons_of_ne hxw q'.reverse
      have hzw : z = w := by
        rw [hw]
        rcases (hAdj _ _).mp hz with h | ⟨hxx, _⟩ | ⟨_, hby⟩
        · exact absurd h (hiso _)
        · exact absurd hxx hxy
        · exact hby
      subst hzw
      have hmem : s(x, z) ∈ q'.reverse.edges := by
        rw [hq2, SimpleGraph.Walk.edges_cons]
        exact List.mem_cons_self _ _
      rw [SimpleGraph.Walk.edges_reverse, List.mem_reverse] at hmem
      exact hnotmem hmem
  · have hsub : ∀ e ∈ p.edges, e ∈ G.edgeSet := by
      intro e he
      induction e using Sym2.ind with
      | _ a b =>
        have hadj := p.adj_of_mem_edges he
        rcases (hAdj _ _).mp hadj with h | ⟨_, hbx⟩ | ⟨hax, _⟩
        · exact h
        · exact absurd (hbx ▸ SimpleGraph.Walk.snd_mem_support_of_mem_edges p he) hx
        · exact absurd (hax ▸ SimpleGraph.Walk.fst_mem_support_of_mem_edges p he) hx
    exact hacyc (p.transfer G hsub) (hp.transfer hsub)

/-- Lift an in-bounds cell to a vertex of the grid graph. -/
def toVert {W H : ℕ} (v : ℕ × ℕ) (hv : v ∈ allCells W H) : Fin W × Fin H :=
  (⟨v.1, (mem_allCells.mp hv).1⟩, ⟨v.2, (mem_allCells.mp hv).2⟩)

/-- Equality with a lifted cell, componentwise. -/
theorem eq_toVert_iff {W H : ℕ} {a : Fin W × Fin H} {v : ℕ × ℕ}
    (hv : v ∈ allCells W H) :
    a = toVert v hv ↔ ((a.1.1 : ℕ), (a.2.1 : ℕ)) = v := by
  rw [Prod.ext_iff, Prod.ext_iff]
  unfold toVert
  rw [Fin.ext_iff, Fin.ext_iff]

/-- One carve keeps the passage graph acyclic when the carved target had
no passages yet. -/
theorem mazeGraph_carve_acyclic {W H : ℕ} {m : Maze} {c n : ℕ × ℕ} {d : Dir}
    (hW : m.width = W) (hlen : m.cells.length = W * H)
    (hc : c ∈ allCells W H) (hd : neighbor W H c d = some n)
    (hiso : ∀ b, ¬passage W H m n b)
    (hacyc : (mazeGraph W H m).IsAcyclic) :
    (mazeGraph W H (Maze_RemoveWallBetween m c n)).IsAcyclic := by
  have hnall : n ∈ allCells W H := neighbor_mem_allCells hd
  have hncn : n ≠ c := neighbor_ne_self hd
  apply isAcyclic_pendant (x := toVert n hnall) (y := toVert c hc)
    (G := mazeGraph W H m)
  · intro he
    apply hncn
    have h1 := congrArg (fun p : Fin W × Fin H => ((p.1.1 : ℕ), (p.2.1 : ℕ))) he
    simpa [toVert] using h1
  · intro z hz
    exact hiso _ hz
  · exact hacyc
  · intro a b
    show passage W H (Maze_RemoveWallBetween m c n) _ _ ↔ _
    rw [passage_carve_iff hW hlen hc hd]
    constructor
    · rintro (h | ⟨h1, h2⟩ | ⟨h1, h2⟩)
      · exact Or.inl h
      · exact Or.inr (Or.inl ⟨(eq_toVert_iff hc).mpr h1, (eq_toVert_iff hnall).mpr h2⟩)
      · exact Or.inr (Or.inr ⟨(eq_toVert_iff hnall).mpr h1, (eq_toVert_iff hc).mpr h2⟩)
    · rintro (h | ⟨h1, h2⟩ | ⟨h1, h2⟩)
      · exact Or.inl h
      · exact Or.inr (Or.inl ⟨(eq_toVert_iff hc).mp h1, (eq_toVert_iff hnall).mp h2⟩)
      · exact Or.inr (Or.inr ⟨(eq_toVert_iff hnall).mp h1, (eq_toVert_iff hc).mp h2⟩)

/-- Invariant carried by the carving loop: the maze dimensions are fixed,
walls stay symmetric, every carved passage joins visited cells, the number
of removed wall pairs is one less than the number of visited cells, every
visited cell is reachable from the start through carved passages, the
passage graph stays acyclic, and a visited cell no longer on the stack has
no unvisited neighbor left. -/
structure GenInv (W H : ℕ) (m : Maze) (visited : Finset (ℕ × ℕ))
    (stack : List (ℕ × ℕ)) : Prop where
  wEq : m.width = W
  hEq : m.height = H
  len : m.cells.length = W * H
  startMem : ((0, 0) : ℕ × ℕ) ∈ visited
  visSub : visited ⊆ allCells W H
  stackSub : ∀ c ∈ stack, c ∈ visited
  sym : ∀ a ∈ allCells W H, ∀ (d : Dir) (b : ℕ × ℕ),
    neighbor W H a d = some b → (maskAt m a).get d = (maskAt m b).get d.opp
  pasVis : ∀ a b, passage W H m a b → a ∈ visited ∧ b ∈ visited
  count : (removedPairs W H m).card + 1 = visited.card
  reach : ∀ v ∈ visited, Relation.ReflTransGen (passage W H m) (0, 0) v
  acyclic : (mazeGraph W H m).IsAcyclic
  closed : ∀ v ∈ visited, v ∉ stack → ∀ (d : Dir) (n : ℕ × ℕ),
    neighbor W H v d = some n → n ∈ visited

/-- The full mask has every flag set. -/
theorem fullMask_get (d : Dir) : fullMask.get d = true := by cases d <;> rfl

/-- Every cell of a freshly created maze carries the full mask. -/
theorem maskAt_create (W H : ℕ) (cs : ℚ) (sp ep c : ℕ × ℕ) :
    maskAt ⟨W, H, cs, List.replicate (W * H) fullMask, sp, ep⟩ c = fullMask := by
  unfold maskAt
  rcases Nat.lt_or_ge (cellIdx W c) (W * H) with h | h
  · rw [List.getD_eq_getElem _ _ (by simpa using h)]
    simp
  · rw [List.getD_eq_default _ _ (by simpa using h)]

/-- A freshly created maze has no passage. -/
theorem passage_create_false (W H : ℕ) (cs : ℚ) (sp ep : ℕ × ℕ)
    {a b : ℕ × ℕ} :
    ¬passage W H ⟨W, H, cs, List.replicate (W * H) fullMask, sp, ep⟩ a b := by
  rintro ⟨_, d, _, hwa, _⟩
  rw [maskAt_create, fullMask_get] at hwa
  cases hwa

/-- The invariant holds at loop entry. -/
theorem genInv_init (W H : ℕ) (cs : ℚ) (hW1 : 1 ≤ W) (hH1 : 1 ≤ H) :
    GenInv W H ⟨W, H, cs, List.replicate (W * H) fullMask, (0, 0), (0, 0)⟩
      {((0, 0) : ℕ × ℕ)} [(0, 0)] where
  wEq := rfl
  hEq := rfl
  len := List.length_replicate _ _
  startMem := Finset.mem_singleton_self _
  visSub := by
    intro x hx
    rw [Finset.mem_singleton] at hx
    subst hx
    exact mem_allCells.mpr ⟨hW1, hH1⟩
  stackSub := by
    intro c hc
    rw [List.mem_singleton] at hc
    subst hc
    exact Finset.mem_singleton_self _
  sym := by
    intro a _ d b _
    rw [maskAt_create, maskAt_create, fullMask_get, fullMask_get]
  pasVis := fun a b h => absurd h (passage_create_false W H cs _ _)
  count := by
    have : removedPairs W H ⟨W, H, cs, List.replicate (W * H) fullMask,
        (0, 0), (0, 0)⟩ = ∅ := by
      apply Finset.filter_false_of_mem
      intro p _
      rw [not_and]
      intro hp
      exact absurd hp (passage_create_false W H cs _ _)
    rw [this, Finset.card_empty, Finset.card_singleton]
  reach := by
    intro v hv
    rw [Finset.mem_singleton] at hv
    subst hv
    exact Relation.ReflTransGen.refl
  acyclic := by
    intro v p hp
    cases p with
    | nil => exact SimpleGraph.Walk.IsCycle.not_of_nil hp
    | cons hadj q => exact absurd hadj (passage_create_false W H cs _ _)
  closed := by
    intro v hv hns
    rw [Finset.mem_singleton] at hv
    subst hv
    exact absurd (List.mem_singleton_self _) hns

/-- Backtracking preserves the invariant. -/
theorem genInv_backtrack {W H : ℕ} {m : Maze} {visited : Finset (ℕ × ℕ)}
    {c : ℕ × ℕ} {rest : List (ℕ × ℕ)}
    (inv : GenInv W H m visited (c :: rest))
    (hns : unvisitedNeighbors W H visited c = []) :
    GenInv W H m visited rest where
  wEq := inv.wEq
  hEq := inv.hEq
  len := inv.len
  startMem := inv.startMem
  visSub := inv.visSub
  stackSub := fun x hx => inv.stackSub x (List.mem_cons_of_mem c hx)
  sym := inv.sym
  pasVis := inv.pasVis
  count := inv.count
  reach := inv.reach
  acyclic := inv.acyclic
  closed := by
    intro v hv hnrest d n hn
    by_cases hvc : v = c
    · subst hvc
      by_contra hnv
      have hmem : n ∈ unvisitedNeighbors W H visited v :=
        mem_unvisitedNeighbors.mpr ⟨hnv, d, hn⟩
      rw [hns] at hmem
      exact (List.not_mem_nil n) hmem
    · refine inv.closed v hv ?_ d n hn
      intro hmem
      rcases List.mem_cons.mp hmem with h | h
      · exact hvc h
      · exact hnrest h

/-- Carving into a fresh neighbor preserves the invariant. -/
theorem genInv_carve {W H : ℕ} {m : Maze} {visited : Finset (ℕ × ℕ)}
    {c : ℕ × ℕ} {rest : List (ℕ × ℕ)}
    (inv : GenInv W H m visited (c :: rest))
    {n : ℕ × ℕ} (hnv : n ∉ visited) {d : Dir}
    (hd : neighbor W H c d = some n) :
    GenInv W H (Maze_RemoveWallBetween m c n) (insert n visited)
      (n :: c :: rest) := by
  have hcv : c ∈ visited := inv.stackSub c (List.mem_cons_self c rest)
  have hc : c ∈ allCells W H := inv.visSub hcv
  have hnall : n ∈ allCells W H := neighbor_mem_allCells hd
  have hW := inv.wEq
  have hlen := inv.len
  have hfields := removeWall_fields m c n
  exact {
    wEq := by rw [hfields.1, inv.wEq]
    hEq := by rw [hfields.2.1, inv.hEq]
    len := by rw [hfields.2.2.2.1, inv.len]
    startMem := Finset.mem_insert_of_mem inv.startMem
    visSub := by
      intro x hx
      rcases Finset.mem_insert.mp hx with rfl | hx
      · exact hnall
      · exact inv.visSub hx
    stackSub := by
      intro x hx
      rcases List.mem_cons.mp hx with rfl | hx
      · exact Finset.mem_insert_self _ _
      · exact Finset.mem_insert_of_mem (inv.stackSub x hx)
    sym := sym_carve hW hlen hc hd inv.sym
    pasVis := by
      intro a b hab
      rcases (passage_carve_iff hW hlen hc hd a b).mp hab with
        h | ⟨rfl, rfl⟩ | ⟨rfl, rfl⟩
      · exact ⟨Finset.mem_insert_of_mem (inv.pasVis a b h).1,
          Finset.mem_insert_of_mem (inv.pasVis a b h).2⟩
      · exact ⟨Finset.mem_insert_of_mem hcv, Finset.mem_insert_self _ _⟩
      · exact ⟨Finset.mem_insert_self _ _, Finset.mem_insert_of_mem hcv⟩
    count := by
      have hno : ¬passage W H m c n := fun h => hnv (inv.pasVis c n h).2
      rw [removedPairs_carve hW hlen hc hd hno,
        Finset.card_insert_of_not_mem hnv, ← inv.count]
    reach := by
      have mono : ∀ a b, passage W H m a b →
          passage W H (Maze_RemoveWallBetween m c n) a b := fun a b h =>
        (passage_carve_iff hW hlen hc hd a b).mpr (Or.inl h)
      intro v hv
      rcases Finset.mem_insert.mp hv with rfl | hv
      · exact Relation.ReflTransGen.tail
          (Relation.ReflTransGen.mono mono (inv.reach c hcv))
          ((passage_carve_iff hW hlen hc hd c v).mpr (Or.inr (Or.inl ⟨rfl, rfl⟩)))
      · exact Relation.ReflTransGen.mono mono (inv.reach v hv)
    acyclic := mazeGraph_carve_acyclic hW hlen hc hd
      (fun b h => hnv (inv.pasVis n b h).1) inv.acyclic
    closed := by
      intro v hv hnstack d' n' hn'
      have hvn : v ≠ n := fun he => hnstack (he ▸ List.mem_cons_self _ _)
      have hv' : v ∈ visited := (Finset.mem_insert.mp hv).resolve_left hvn
      have hvrest : v ∉ c :: rest := fun hmem =>
        hnstack (List.mem_cons_of_mem n hmem)
      exact Finset.mem_insert_of_mem (inv.closed v hv' hvrest d' n' hn') }

/-- The carving loop preserves the invariant down to an empty stack and
only grows the visited set. -/
theorem genLoop_spec (W H : ℕ) (m : Maze) (visited : Finset (ℕ × ℕ))
    (stack : List (ℕ × ℕ)) (rng : RandState) :
    GenInv W H m visited stack →
      ∃ v', GenInv W H (genLoop W H m visited stack rng).1 v' [] ∧
        visited ⊆ v' := by
  refine genLoop.induct W H
    (fun m visited stack rng =>
      GenInv W H m visited stack →
        ∃ v', GenInv W H (genLoop W H m visited stack rng).1 v' [] ∧
          visited ⊆ v')
    ?_ ?_ ?_ m visited stack rng
  · intro m visited rng hinv
    rw [genLoop_nil]
    exact ⟨visited, hinv, Finset.Subset.refl _⟩
  · intro m visited rng c rest ns hns ih hinv
    rw [genLoop_cons_empty _ _ _ _ _ _ _ hns]
    exact ih (genInv_backtrack hinv hns)
  · intro m visited rng c rest ns hns r rng' n ih hinv
    have hmem : n ∈ ns :=
      getD_mem_of_lt_length _ c (Nat.mod_lt _ (List.length_pos.mpr hns))
    obtain ⟨hnv, d, hd⟩ := mem_unvisitedNeighbors.mp hmem
    rw [genLoop_cons_step _ _ _ _ _ _ _ hns]
    obtain ⟨v', hv', hsub⟩ := ih (genInv_carve hinv hnv hd)
    exact ⟨v', hv', Finset.Subset.trans (Finset.subset_insert n visited) hsub⟩

/-- At loop exit every cell of the grid has been visited. -/
theorem genInv_final {W H : ℕ} {m : Maze} {v : Finset (ℕ × ℕ)}
    (hW1 : 1 ≤ W) (hH1 : 1 ≤ H) (inv : GenInv W H m v []) :
    v = allCells W H := by
  have hcl : ∀ x ∈ v, ∀ (d : Dir) (n : ℕ × ℕ),
      neighbor W H x d = some n → n ∈ v :=
    fun x hx => inv.closed x hx (List.not_mem_nil x)
  have hrow : ∀ y, y < H → ((0 : ℕ), y) ∈ v := by
    intro y
    induction y with
    | zero => intro _; exact inv.startMem
    | succ k ih =>
      intro hk
      have hkv := ih (by omega)
      have hnb : neighbor W H ((0 : ℕ), k) .south = some (0, k + 1) := by
        simp only [neighbor]
        rw [if_pos ⟨hW1, hk⟩]
      exact hcl (0, k) hkv .south _ hnb
  have hall : ∀ x y, x < W → y < H → ((x : ℕ), y) ∈ v := by
    intro x
    induction x with
    | zero => intro y _ hy; exact hrow y hy
    | succ k ih =>
      intro y hk hy
      have hkv := ih y (by omega) hy
      have hnb : neighbor W H ((k : ℕ), y) .east = some (k + 1, y) := by
        simp only [neighbor]
        rw [if_pos ⟨hk, hy⟩]
      exact hcl (k, y) hkv .east _ hnb
  apply Finset.Subset.antisymm inv.visSub
  intro x hx
  rw [mem_allCells] at hx
  have hmem := hall x.1 x.2 hx.1 hx.2
  simpa using hmem

/-- C1.  After generation on a W×H grid (W,H ≥ 1, witnessed by successful
creation), the carved passage graph is a spanning tree of the grid: the
number of removed wall pairs is exactly W*H - 1, every cell is reachable
from every other cell through passages, and the passage graph has no
cycle. -/
theorem maze_generate_spanning_tree (W H : ℕ) (cs : ℚ) (rng : RandState)
    (m : Maze) (hm : Maze_Create W H cs = some m) :
    (removedPairs W H (Maze_Generate m rng).1).card = W * H - 1 ∧
      (∀ a ∈ allCells W H, ∀ b ∈ allCells W H,
        Relation.ReflTransGen (passage W H (Maze_Generate m rng).1) a b) ∧
      (mazeGraph W H (Maze_Generate m rng).1).IsAcyclic := by
  unfold Maze_Create at hm
  split_ifs at hm with h0
  cases hm
  have hW1 : 1 ≤ W := by omega
  have hH1 : 1 ≤ H := by omega
  obtain ⟨v', hfin, hsub⟩ := genLoop_spec W H
    ⟨W, H, cs, List.replicate (W * H) fullMask, (0, 0), (0, 0)⟩
    {((0, 0) : ℕ × ℕ)} [(0, 0)] rng (genInv_init W H cs hW1 hH1)
  have hveq : v' = allCells W H := genInv_final hW1 hH1 hfin
  subst hveq
  have hcard : (allCells W H).card = W * H := by
    rw [allCells, Finset.card_product, Finset.card_range, Finset.card_range]
  have hsymm : Symmetric (Relation.ReflTransGen
      (passage W H (genLoop W H
        ⟨W, H, cs, List.replicate (W * H) fullMask, (0, 0), (0, 0)⟩
        {((0, 0) : ℕ × ℕ)} [(0, 0)] rng).1)) :=
    Relation.ReflTransGen.symmetric fun _ _ h => passage_symm h
  refine ⟨?_, ?_, ?_⟩
  · have hc := hfin.count
    rw [hcard] at hc
    show (removedPairs W H (genLoop W H
      ⟨W, H, cs, List.replicate (W * H) fullMask, (0, 0), (0, 0)⟩
      {((0, 0) : ℕ × ℕ)} [(0, 0)] rng).1).card = W * H - 1
    omega
  · intro a ha b hb
    exact Relation.ReflTransGen.trans (hsymm (hfin.reach a ha))
      (hfin.reach b hb)
  · exact hfin.acyclic

/-- C1 witness: a 2×2 maze generated from seed 0. -/
theorem maze_generate_spanning_tree_witness :
    Maze_Create 2 2 1 =
        some ⟨2, 2, 1, List.replicate (2 * 2) fullMask, (0, 0), (0, 0)⟩ ∧
      ((removedPairs 2 2
          (Maze_Generate
            ⟨2, 2, 1, List.replicate (2 * 2) fullMask, (0, 0), (0, 0)⟩
            ⟨0⟩).1).card = 2 * 2 - 1 ∧
        (∀ a ∈ allCells 2 2, ∀ b ∈ allCells 2 2,
          Relation.ReflTransGen
            (passage 2 2
              (Maze_Generate
                ⟨2, 2, 1, List.replicate (2 * 2) fullMask, (0, 0), (0, 0)⟩
                ⟨0⟩).1) a b) ∧
        (mazeGraph 2 2
          (Maze_Generate
            ⟨2, 2, 1, List.replicate (2 * 2) fullMask, (0, 0), (0, 0)⟩
            ⟨0⟩).1).IsAcyclic) :=
  ⟨rfl, maze_generate_spanning_tree 2 2 1 ⟨0⟩ _ rfl⟩

/-- C3.  Wall symmetry after generation: for every pair of 4-adjacent
in-bounds cells, the wall query on the first cell towards the second
returns the same boolean as the query on the second towards the first. -/
theorem hasWall_symmetric (W H : ℕ) (cs : ℚ) (rng : RandState) (m : Maze)
    (hm : Maze_Create W H cs = some m) (a b : ℕ × ℕ) (d : Dir)
    (ha : a ∈ allCells W H) (hn : neighbor W H a d = some b) :
    Maze_HasWall (Maze_Generate m rng).1 a.1 a.2 d =
      Maze_HasWall (Maze_Generate m rng).1 b.1 b.2 d.opp := by
  unfold Maze_Create at hm
  split_ifs at hm with h0
  cases hm
  have hW1 : 1 ≤ W := by omega
  have hH1 : 1 ≤ H := by omega
  obtain ⟨v', hfin, hsub⟩ := genLoop_spec W H _ {((0, 0) : ℕ × ℕ)} [(0, 0)]
    rng (genInv_init W H cs hW1 hH1)
  have hb : b ∈ allCells W H := neighbor_mem_allCells hn
  have hwid : (Maze_Generate
      ⟨W, H, cs, List.replicate (W * H) fullMask, (0, 0), (0, 0)⟩ rng).1.width
      = W := hfin.wEq
  have hhei : (Maze_Generate
      ⟨W, H, cs, List.replicate (W * H) fullMask, (0, 0), (0, 0)⟩ rng).1.height
      = H := hfin.hEq
  rw [mem_allCells] at ha hb
  unfold Maze_HasWall
  rw [if_pos (by rw [hwid, hhei]; omega), if_pos (by rw [hwid, hhei]; omega)]
  have hsym := hfin.sym a (mem_allCells.mpr ha) d b hn
  congr 1

/-- C3 witness: adjacent cells (0,0) and (0,1) of a generated 2×2 maze. -/
theorem hasWall_symmetric_witness :
    Maze_Create 2 2 1 =
        some ⟨2, 2, 1, List.replicate (2 * 2) fullMask, (0, 0), (0, 0)⟩ ∧
      ((0, 0) : ℕ × ℕ) ∈ allCells 2 2 ∧
      neighbor 2 2 (0, 0) .south = some (0, 1) ∧
      Maze_HasWall
          (Maze_Generate
            ⟨2, 2, 1, List.replicate (2 * 2) fullMask, (0, 0), (0, 0)⟩
            ⟨0⟩).1 0 0 .south =
        Maze_HasWall
          (Maze_Generate
            ⟨2, 2, 1, List.replicate (2 * 2) fullMask, (0, 0), (0, 0)⟩
            ⟨0⟩).1 0 1 Dir.south.opp :=
  ⟨rfl, by decide, by decide,
    hasWall_symmetric 2 2 1 ⟨0⟩ _ rfl (0, 0) (0, 1) .south (by decide)
      (by decide)⟩

/-- C6.  Placement: for every generated maze with more than one cell the
start and exit cells differ and both are inside the grid. -/
theorem placement_start_ne_exit (W H : ℕ) (cs : ℚ) (rng : RandState)
    (m : Maze) (hm : Maze_Create W H cs = some m) (hgt : 1 < W * H) :
    (Maze_Generate m rng).1.startPos ≠ (Maze_Generate m rng).1.exitPos ∧
      (Maze_Generate m rng).1.startPos.1 < W ∧
      (Maze_Generate m rng).1.startPos.2 < H ∧
      (Maze_Generate m rng).1.exitPos.1 < W ∧
      (Maze_Generate m rng).1.exitPos.2 < H := by
  unfold Maze_Create at hm
  split_ifs at hm with h0
  cases hm
  have hW1 : 1 ≤ W := by omega
  have hH1 : 1 ≤ H := by omega
  obtain ⟨v', hfin, hsub⟩ := genLoop_spec W H
    ⟨W, H, cs, List.replicate (W * H) fullMask, (0, 0), (0, 0)⟩
    {((0, 0) : ℕ × ℕ)} [(0, 0)] rng (genInv_init W H cs hW1 hH1)
  have hwid := hfin.wEq
  have hhei := hfin.hEq
  have hstart : (Maze_Generate
      ⟨W, H, cs, List.replicate (W * H) fullMask, (0, 0), (0, 0)⟩
      rng).1.startPos = ((0 : ℕ), (0 : ℕ)) := rfl
  have hexit : (Maze_Generate
      ⟨W, H, cs, List.replicate (W * H) fullMask, (0, 0), (0, 0)⟩
      rng).1.exitPos =
      ((genLoop W H ⟨W, H, cs, List.replicate (W * H) fullMask, (0, 0), (0, 0)⟩
          {((0, 0) : ℕ × ℕ)} [(0, 0)] rng).1.width - 1,
        (genLoop W H ⟨W, H, cs, List.replicate (W * H) fullMask, (0, 0), (0, 0)⟩
          {((0, 0) : ℕ × ℕ)} [(0, 0)] rng).1.height - 1) := rfl
  rw [hstart, hexit, hwid, hhei]
  refine ⟨?_, by omega, by omega, by omega, by omega⟩
  intro he
  rw [Prod.mk.injEq] at he
  have hW' : W = 1 := by omega
  have hH' : H = 1 := by omega
  rw [hW', hH'] at hgt
  omega

/-- C6 witness: a generated 2×2 maze. -/
theorem placement_start_ne_exit_witness :
    Maze_Create 2 2 1 =
        some ⟨2, 2, 1, List.replicate (2 * 2) fullMask, (0, 0), (0, 0)⟩ ∧
      1 < 2 * 2 ∧
      ((Maze_Generate
          ⟨2, 2, 1, List.replicate (2 * 2) fullMask, (0, 0), (0, 0)⟩
          ⟨0⟩).1.startPos ≠
        (Maze_Generate
          ⟨2, 2, 1, List.replicate (2 * 2) fullMask, (0, 0), (0, 0)⟩
          ⟨0⟩).1.exitPos) :=
  ⟨rfl, by decide,
    (placement_start_ne_exit 2 2 1 ⟨0⟩ _ rfl (by decide)).1⟩

/-- Two runs of the generator on the same maze argument but different
hidden global generator states produce different wall grids (computed on
a 2×2 maze with global seeds 0 and 1). -/
theorem generate_cells_differ_for_seeds :
    (Maze_Generate ⟨2, 2, 1, List.replicate (2 * 2) fullMask, (0, 0), (0, 0)⟩
      ⟨0⟩).1.cells ≠
    (Maze_Generate ⟨2, 2, 1, List.replicate (2 * 2) fullMask, (0, 0), (0, 0)⟩
      ⟨1⟩).1.cells := by
  simp +decide only [Maze_Generate, Maze_PlaceStartExit, genLoop_nil,
    genLoop_cons_empty, genLoop_cons_step, unvisitedNeighbors, neighbor,
    randNext, Maze_RemoveWallBetween, dirBetween, setMask, maskAt, cellIdx,
    fullMask, WallMask.clear, Dir.opp, List.filterMap, List.replicate,
    List.set, List.getD, List.length]

/-- C2 counterexample.  The claim says the generator takes its random
source as an explicit, injectable parameter and does not depend on
implicit global state.  In the program, `main` seeds the process-global
generator (`srand(time(NULL))`) and `Maze_Generate(maze)` receives no
random source argument; with the C-visible argument held fixed (the same
freshly created 2×2 maze), the resulting wall-mask grid still differs
between two hidden global states, so generation does depend on implicit
global random state. -/
theorem generate_depends_on_global_state :
    (Maze_Generate ⟨2, 2, 1, List.replicate (2 * 2) fullMask, (0, 0), (0, 0)⟩
      ⟨0⟩).1.cells ≠
    (Maze_Generate ⟨2, 2, 1, List.replicate (2 * 2) fullMask, (0, 0), (0, 0)⟩
      ⟨1⟩).1.cells :=
  generate_cells_differ_for_seeds

/-- C2 amended.  Generation is deterministic in the global generator
seed: for every maze and any two equal global states the produced
wall-mask grids are byte identical; but the random source is the
process-global generator state, not an injectable parameter, and mazes
generated under different hidden global states differ. -/
theorem generate_seed_deterministic :
    (∀ (m : Maze) (s₁ s₂ : RandState), s₁ = s₂ →
      (Maze_Generate m s₁).1.cells = (Maze_Generate m s₂).1.cells) ∧
    (Maze_Generate ⟨2, 2, 1, List.replicate (2 * 2) fullMask, (0, 0), (0, 0)⟩
      ⟨0⟩).1.cells ≠
    (Maze_Generate ⟨2, 2, 1, List.replicate (2 * 2) fullMask, (0, 0), (0, 0)⟩
      ⟨1⟩).1.cells :=
  ⟨fun _ _ _ h => by rw [h], generate_cells_differ_for_seeds⟩

/-- C2 witness: the determinism half applied at a concrete maze and
seed. -/
theorem generate_seed_deterministic_witness :
    (Maze_Generate ⟨2, 2, 1, List.replicate (2 * 2) fullMask, (0, 0), (0, 0)⟩
      ⟨7⟩).1.cells =
    (Maze_Generate ⟨2, 2, 1, List.replicate (2 * 2) fullMask, (0, 0), (0, 0)⟩
      ⟨7⟩).1.cells :=
  generate_seed_deterministic.1
    ⟨2, 2, 1, List.replicate (2 * 2) fullMask, (0, 0), (0, 0)⟩ ⟨7⟩ ⟨7⟩ rfl

/-- Torch generation invariant: the running count is within budget and
counts exactly the entries written so far. -/
def TorchInv (maxTorches : ℤ) (s : ℤ × List Torch × RandState) : Prop :=
  0 ≤ s.1 ∧ s.1 ≤ maxTorches ∧ s.2.1.length = s.1.toNat

/-- Unfolding: an iteration of the wall placement loop. -/
theorem torchLoop_pos (cellSize : ℚ) (maxTorches : ℤ)
    (mkPos : ℚ → ℚ × ℚ × ℚ) (nrm : ℚ × ℚ × ℚ) (offset : ℚ) (count : ℤ)
    (acc : List Torch) (rng : RandState)
    (h : offset < cellSize ∧ count < maxTorches) :
    torchLoop cellSize maxTorches mkPos nrm offset count acc rng =
      torchLoop cellSize maxTorches mkPos nrm (offset + 12) (count + 1)
        (acc ++ [⟨mkPos offset, nrm, (torchFields rng).1,
          (torchFields rng).2.1⟩]) (torchFields rng).2.2 := by
  rw [torchLoop]
  exact dif_pos h

/-- Unfolding: loop exit. -/
theorem torchLoop_neg (cellSize : ℚ) (maxTorches : ℤ)
    (mkPos : ℚ → ℚ × ℚ × ℚ) (nrm : ℚ × ℚ × ℚ) (offset : ℚ) (count : ℤ)
    (acc : List Torch) (rng : RandState)
    (h : ¬(offset < cellSize ∧ count < maxTorches)) :
    torchLoop cellSize maxTorches mkPos nrm offset count acc rng =
      (count, acc, rng) := by
  rw [torchLoop]
  exact dif_neg h

/-- The wall placement loop preserves the torch invariant. -/
theorem torchLoop_inv (cellSize : ℚ) (maxTorches : ℤ)
    (mkPos : ℚ → ℚ × ℚ × ℚ) (nrm : ℚ × ℚ × ℚ) :
    ∀ (offset : ℚ) (count : ℤ) (acc : List Torch) (rng : RandState),
      TorchInv maxTorches (count, acc, rng) →
      TorchInv maxTorches
        (torchLoop cellSize maxTorches mkPos nrm offset count acc rng) := by
  refine torchLoop.induct cellSize maxTorches mkPos nrm
    (fun offset count acc rng =>
      TorchInv maxTorches (count, acc, rng) →
        TorchInv maxTorches
          (torchLoop cellSize maxTorches mkPos nrm offset count acc rng))
    ?_ ?_
  · intro offset count acc rng h f ih hs
    obtain ⟨h0, hle, hlen⟩ := hs
    rw [torchLoop_pos _ _ _ _ _ _ _ _ h]
    refine ih ⟨by omega, by omega, ?_⟩
    rw [List.length_append, hlen]
    simp only [List.length_singleton]
    omega
  · intro offset count acc rng h hs
    rw [torchLoop_neg _ _ _ _ _ _ _ _ h]
    exact hs

/-- One optional run of the wall placement loop preserves the torch
invariant. -/
theorem torchStep_inv (maxTorches : ℤ) (b : Bool) (cellSize : ℚ)
    (mkPos : ℚ → ℚ × ℚ × ℚ) (nrm : ℚ × ℚ × ℚ) (offset : ℚ)
    (s : ℤ × List Torch × RandState) (hs : TorchInv maxTorches s) :
    TorchInv maxTorches
      (if b = true then
        torchLoop cellSize maxTorches mkPos nrm offset s.1 s.2.1 s.2.2
      else s) := by
  by_cases hb : b = true
  · rw [if_pos hb]
    exact torchLoop_inv cellSize maxTorches mkPos nrm offset s.1 s.2.1 s.2.2
      (by
        obtain ⟨h0, hle, hlen⟩ := hs
        exact ⟨h0, hle, hlen⟩)
  · rw [if_neg hb]
    exact hs

/-- Per-cell torch placement preserves the torch invariant. -/
theorem torchCell_inv (m : Maze) (maxTorches : ℤ) (x y : ℕ) (count : ℤ)
    (acc : List Torch) (rng : RandState)
    (hs : TorchInv maxTorches (count, acc, rng)) :
    TorchInv maxTorches (torchCell m maxTorches x y count acc rng) := by
  unfold torchCell
  exact torchStep_inv _ _ _ _ _ _ _
    (torchStep_inv _ _ _ _ _ _ _
      (torchStep_inv _ _ _ _ _ _ _
        (torchStep_inv _ _ _ _ _ _ _ hs)))

/-- The cell traversal preserves the torch invariant. -/
theorem torchCellsGo_inv (m : Maze) (maxTorches : ℤ) :
    ∀ (cells : List (ℕ × ℕ)) (count : ℤ) (acc : List Torch)
      (rng : RandState), TorchInv maxTorches (count, acc, rng) →
      TorchInv maxTorches (torchCellsGo m maxTorches cells count acc rng) := by
  intro cells
  induction cells with
  | nil => intro count acc rng hs; exact hs
  | cons c rest ih =>
    intro count acc rng hs
    show TorchInv maxTorches
      (if count < maxTorches then
        torchCellsGo m maxTorches rest (torchCell m maxTorches c.1 c.2 count acc rng).1
          (torchCell m maxTorches c.1 c.2 count acc rng).2.1
          (torchCell m maxTorches c.1 c.2 count acc rng).2.2
      else (count, acc, rng))
    by_cases hc : count < maxTorches
    · rw [if_pos hc]
      have hcell := torchCell_inv m maxTorches c.1 c.2 count acc rng hs
      have := ih (torchCell m maxTorches c.1 c.2 count acc rng).1
        (torchCell m maxTorches c.1 c.2 count acc rng).2.1
        (torchCell m maxTorches c.1 c.2 count acc rng).2.2
        (by
          obtain ⟨h0, hle, hlen⟩ := hcell
          exact ⟨h0, hle, hlen⟩)
      exact this
    · rw [if_neg hc]
      exact hs

/-- C10.  `Torches_Generate` never overruns its buffer: the returned
count n always satisfies 0 ≤ n, n ≤ maxTorches whenever the capacity is
positive, the number of entries written equals n, and a missing maze, a
missing output buffer or a non-positive capacity yields 0 with nothing
written. -/
theorem torches_generate_safe (maze? : Option Maze) (outProvided : Bool)
    (maxTorches : ℤ) (rng : RandState) :
    (0 ≤ (Torches_Generate maze? outProvided maxTorches rng).1 ∧
      (0 < maxTorches →
        (Torches_Generate maze? outProvided maxTorches rng).1 ≤ maxTorches) ∧
      (Torches_Generate maze? outProvided maxTorches rng).2.1.length =
        (Torches_Generate maze? outProvided maxTorches rng).1.toNat) ∧
    ((maze? = none ∨ outProvided = false ∨ maxTorches ≤ 0) →
      Torches_Generate maze? outProvided maxTorches rng = (0, [], rng)) := by
  cases maze? with
  | none =>
    exact ⟨⟨le_refl 0, fun h => by show (0 : ℤ) ≤ maxTorches; omega, rfl⟩,
      fun _ => rfl⟩
  | some m =>
    have hred : Torches_Generate (some m) outProvided maxTorches rng =
        if outProvided = false ∨ maxTorches ≤ 0 then (0, [], rng)
        else torchCellsGo m maxTorches (torchCellList m.width m.height)
          0 [] rng := rfl
    rw [hred]
    by_cases hg : outProvided = false ∨ maxTorches ≤ 0
    · rw [if_pos hg]
      refine ⟨⟨le_refl 0, fun h => by omega, rfl⟩, fun _ => rfl⟩
    · rw [if_neg hg]
      rw [not_or] at hg
      have hmax : 0 ≤ maxTorches := by omega
      have hres := torchCellsGo_inv m maxTorches
        (torchCellList m.width m.height) 0 [] rng ⟨le_refl 0, hmax, rfl⟩
      refine ⟨⟨hres.1, fun _ => hres.2.1, hres.2.2⟩, ?_⟩
      rintro (h | h | h)
      · cases h
      · exact absurd h hg.1
      · exact absurd h (by omega)

/-- C10 witness: a 2×2 maze with all walls, budget 3. -/
theorem torches_generate_safe_witness :
    0 ≤ (Torches_Generate
        (some ⟨2, 2, 1, List.replicate (2 * 2) fullMask, (0, 0), (0, 0)⟩)
        true 3 ⟨0⟩).1 ∧
      ((0 : ℤ) < 3 → (Torches_Generate
        (some ⟨2, 2, 1, List.replicate (2 * 2) fullMask, (0, 0), (0, 0)⟩)
        true 3 ⟨0⟩).1 ≤ 3) ∧
      (Torches_Generate
        (some ⟨2, 2, 1, List.replicate (2 * 2) fullMask, (0, 0), (0, 0)⟩)
        true 3 ⟨0⟩).2.1.length =
      (Torches_Generate
        (some ⟨2, 2, 1, List.replicate (2 * 2) fullMask, (0, 0), (0, 0)⟩)
        true 3 ⟨0⟩).1.toNat :=
  (torches_generate_safe
    (some ⟨2, 2, 1, List.replicate (2 * 2) fullMask, (0, 0), (0, 0)⟩)
    true 3 ⟨0⟩).1

end MazeGame
